import Mathlib

/-!
Verification development for the vitess scalar-expression evaluation engine
(`evalengine` package, `CollateExpr` / `IntroducerExpr` and their compiled
counterparts) and for the pooled SQL parser (`sqlparser` package).

The Go code under `src/unnamed/part_000` (package `evalengine`) and
`src/go/vt/sqlparser/parser.go` is shallowly embedded below.  Pure Go
functions become Lean functions; the `(value, error)` return convention
becomes an `EvalOutcome` type which additionally has a `nilDeref`
constructor for the Go runtime panic produced by dereferencing a nil
pointer.  Code of the repository that is not among the given sources
(the collation environment, the byte-conversion helpers, the bytecode
assembler and virtual machine) is modelled from the specification; each
such definition carries a doc comment starting with `Modelled from the
spec:`.
-/

/-- Result type tags of runtime values (a subset of `sqltypes.Type`
sufficient for the embedded nodes: character strings, binary strings,
signed integers, and the NULL type). -/
inductive SqlType where
  | varChar
  | varBinary
  | int64
  | tnull
deriving DecidableEq

/-- Coercibility scale, strongest claim first (`collations.Coercibility`). -/
inductive Coercibility where
  | CoerceExplicit
  | CoerceNone
  | CoerceImplicit
  | CoerceSysconst
  | CoerceCoercible
  | CoerceNumeric
  | CoerceIgnorable
deriving DecidableEq

/-- Repertoire of a collated string (`collations.Repertoire`). -/
inductive Repertoire where
  | ASCII
  | Unicode
deriving DecidableEq

/-- A concrete closed set of collation identifiers (`collations.ID`),
one per charset family exercised by the embedded code. -/
inductive CollationID where
  | binaryID
  | utf8mb4GeneralCi
  | utf8mb4Bin
  | utf16GeneralCi
  | utf16leGeneralCi
  | ucs2GeneralCi
  | utf32GeneralCi
  | latin1Swedish
deriving DecidableEq

/-- Charset kinds distinguished by `introducerCast` (the `charset.Charset_*`
types of the Go code). -/
inductive CharsetKind where
  | csBinary
  | csUtf8mb4
  | csUtf16
  | csUtf16le
  | csUcs2
  | csUtf32
  | csLatin1
deriving DecidableEq

/-- Modelled from the spec: the read-only collation/charset catalog
(`CollationID -> charset` lookup, `colldata.Lookup(col).Charset()` in the
Go code) is not under src; the catalog maps each collation to its bound
character set. -/
def charsetOf : CollationID → CharsetKind
  | CollationID.binaryID => CharsetKind.csBinary
  | CollationID.utf8mb4GeneralCi => CharsetKind.csUtf8mb4
  | CollationID.utf8mb4Bin => CharsetKind.csUtf8mb4
  | CollationID.utf16GeneralCi => CharsetKind.csUtf16
  | CollationID.utf16leGeneralCi => CharsetKind.csUtf16le
  | CollationID.ucs2GeneralCi => CharsetKind.csUcs2
  | CollationID.utf32GeneralCi => CharsetKind.csUtf32
  | CollationID.latin1Swedish => CharsetKind.csLatin1

/-- `collations.TypedCollation`: collation id, coercibility, repertoire. -/
structure TypedCollation where
  collation : CollationID
  coercibility : Coercibility
  repertoire : Repertoire
deriving DecidableEq

/-- `collationNull` from the source. -/
def collationNull : TypedCollation :=
  ⟨CollationID.binaryID, Coercibility.CoerceIgnorable, Repertoire.ASCII⟩

/-- `collationNumeric` from the source. -/
def collationNumeric : TypedCollation :=
  ⟨CollationID.binaryID, Coercibility.CoerceNumeric, Repertoire.ASCII⟩

/-- `collationBinary` from the source. -/
def collationBinary : TypedCollation :=
  ⟨CollationID.binaryID, Coercibility.CoerceCoercible, Repertoire.ASCII⟩

/-- The `*evalBytes` runtime value: a type tag, a byte payload, a typed
collation and the flag bits (only `flagExplicitCollation` is relevant to
the embedded nodes). -/
structure EvalBytes where
  sqlType : SqlType
  bytes : List Nat
  col : TypedCollation
  flagExplicitCollation : Bool
deriving DecidableEq

/-- Modelled from the spec: `(*evalBytes).withCollation` is not under src;
the COLLATE type-checker rule "re-tag the inner value's collation to the
explicit target" keeps the type tag and byte payload and replaces the
typed collation. -/
def EvalBytes.withCollation (b : EvalBytes) (tc : TypedCollation) : EvalBytes :=
  { b with col := tc }

/-- The Go statement `b.flag |= flagExplicitCollation`. -/
def EvalBytes.setExplicitCollation (b : EvalBytes) : EvalBytes :=
  { b with flagExplicitCollation := true }

/-- A runtime value behind the `eval` interface: a collated byte string or
a signed integer (`*evalInt64`), the representative non-textual value. -/
inductive EvalValue where
  | bytes (b : EvalBytes)
  | int (i : Int)
deriving DecidableEq

/-- Error kinds of the engine's error taxonomy (spec section 7). -/
inductive ErrorKind where
  | invalidArgument
  | unsupported
  | internal
deriving DecidableEq

/-- Outcome of running Go code that returns `(T, error)`: a value, an
error of a given kind, or a runtime panic from a nil-pointer dereference. -/
inductive EvalOutcome (α : Type) where
  | ok (v : α)
  | err (e : ErrorKind)
  | nilDeref
deriving DecidableEq

/-- Decimal ASCII digits of a natural number (auxiliary, fuel-structured
so that it reduces in the kernel). -/
def natDigitsAux : Nat → Nat → List Nat
  | 0, _ => []
  | fuel + 1, n => if n = 0 then [] else natDigitsAux fuel (n / 10) ++ [48 + n % 10]

/-- Decimal ASCII byte representation of a natural number. -/
def natToDecimalBytes (n : Nat) : List Nat :=
  if n = 0 then [48] else natDigitsAux (n + 1) n

/-- Decimal ASCII byte representation of an integer. -/
def intToBytes (i : Int) : List Nat :=
  if i < 0 then 45 :: natToDecimalBytes i.natAbs else natToDecimalBytes i.natAbs

/-- Modelled from the spec: `eval.ToRawBytes` is not under src; the spec's
value model gives every typed value "a payload (numeric or byte sequence)"
and `ToRawBytes` returns that payload as bytes, numeric payloads in their
decimal text form. -/
def rawBytes : EvalValue → List Nat
  | EvalValue.bytes b => b.bytes
  | EvalValue.int i => intToBytes i

/-- Modelled from the spec: `(*evalBytes).ToRawBytes` is not under src.
In `introducerCast` the branch `if b, ok := e.(*evalBytes); !ok` calls
`b.ToRawBytes()` on the nil pointer `b` produced by the failed type
assertion; a Go method reading the byte payload of a nil receiver
dereferences nil, so the call is modelled as the panic outcome. -/
def toRawBytesOnNilPtr : EvalOutcome (List Nat) :=
  EvalOutcome.nilDeref

/-- Modelled from the spec: `newEvalText` is not under src; it constructs
a character-string runtime value from bytes and a typed collation. -/
def newEvalText (bs : List Nat) (tc : TypedCollation) : EvalBytes :=
  ⟨SqlType.varChar, bs, tc, false⟩

/-- Modelled from the spec: `Environment.EnsureCollate` is not under src.
The spec's COLLATE rule "validate convertibility (charset compatibility)
else fail InvalidArgument" is modelled as: the source and target
collations are compatible when they share a charset, or when the source
is the binary collation (whose bytes can be reinterpreted under any
charset, as the unchecked `VarBinary` branch of `CollateExpr.compile`
presumes). -/
def ensureCollate (a b : CollationID) : Bool :=
  decide (charsetOf a = charsetOf b) || decide (a = CollationID.binaryID)

/-- The charset padding applied by `introducerCast` (the `switch cs.(type)`
over `Charset_utf16`, `Charset_utf16le`, `Charset_ucs2`, `Charset_utf32`):
UTF-16 family charsets left-pad odd-length byte strings with a single zero
byte; UTF-32 left-pads to the next multiple of four bytes. -/
def padForCharset (cs : CharsetKind) (bs : List Nat) : List Nat :=
  match cs with
  | CharsetKind.csUtf16 | CharsetKind.csUtf16le | CharsetKind.csUcs2 =>
      if bs.length % 2 ≠ 0 then 0 :: bs else bs
  | CharsetKind.csUtf32 =>
      if bs.length % 4 ≠ 0 then List.replicate (4 - bs.length % 4) 0 ++ bs else bs
  | _ => bs

/-- Modelled from the spec: charset transcoding ("charset-aware byte
reinterpretation") used when casting a value to character form; the ASCII
baseline payload is widened to the unit width of fixed-width charsets and
kept as-is for single-byte charsets. -/
def convertToCharset (cs : CharsetKind) (bs : List Nat) : List Nat :=
  match cs with
  | CharsetKind.csUtf16 | CharsetKind.csUcs2 => bs.flatMap (fun x => [0, x])
  | CharsetKind.csUtf16le => bs.flatMap (fun x => [x, 0])
  | CharsetKind.csUtf32 => bs.flatMap (fun x => [0, 0, 0, x])
  | _ => bs

/-- Modelled from the spec: `evalToBinary` is not under src; the binary
introducer rule "treat the byte sequence as opaque binary" yields the
value's raw payload bytes as a binary string carrying `collationBinary`
(Coercibility `Coercible`, from the source's `collationBinary`).  Any Go
implementation must inspect its argument, so a nil `eval` interface value
produces a nil dereference. -/
def evalToBinary : Option EvalValue → EvalOutcome EvalBytes
  | none => EvalOutcome.nilDeref
  | some v => EvalOutcome.ok ⟨SqlType.varBinary, rawBytes v, collationBinary, false⟩

/-- Modelled from the spec: `evalToVarchar` is not under src; the COLLATE
rule "if the inner value is not already textual, first cast to character
form" transcodes the value's raw bytes into the target collation's
charset; the fresh text value carries the target collation id with the
coercion defaults (Coercibility `Coercible`, ASCII repertoire). -/
def evalToVarchar (v : EvalValue) (col : CollationID) : EvalOutcome EvalBytes :=
  EvalOutcome.ok (newEvalText (convertToCharset (charsetOf col) (rawBytes v)) ⟨col, Coercibility.CoerceCoercible, Repertoire.ASCII⟩)

/-- `introducerCast` from the source: for the binary target collation the
value is converted to opaque binary; otherwise the code type-asserts the
value to `*evalBytes`.  On a successful assertion the byte payload is
left-padded for fixed-width charsets and reinterpreted under the named
charset with Coercibility `Coercible` and ASCII repertoire.  On a failed
assertion (a nil or non-byte-string value) the Go code calls
`b.ToRawBytes()` on the nil result of the assertion. -/
def introducerCast (e : Option EvalValue) (col : CollationID) : EvalOutcome EvalBytes :=
  if col = CollationID.binaryID then
    evalToBinary e
  else
    match e with
    | some (EvalValue.bytes b) =>
        let padded := padForCharset (charsetOf col) b.bytes
        EvalOutcome.ok (newEvalText padded ⟨col, Coercibility.CoerceCoercible, Repertoire.ASCII⟩)
    | _ =>
        match toRawBytesOnNilPtr with
        | EvalOutcome.ok bs =>
            EvalOutcome.ok (newEvalText bs ⟨col, Coercibility.CoerceCoercible, Repertoire.ASCII⟩)
        | EvalOutcome.err er => EvalOutcome.err er
        | EvalOutcome.nilDeref => EvalOutcome.nilDeref

/-- Expression nodes relevant to the embedded code: literals and column
references as inner leaves (the external parser/catalog collaborators
produce them), plus `CollateExpr` and `IntroducerExpr` from the source.
Each of the latter carries its `TypedCollation` field. -/
inductive Expr where
  | literal (v : Option EvalValue)
  | column (i : Nat)
  | collate (inner : Expr) (tc : TypedCollation)
  | introducer (inner : Expr) (tc : TypedCollation)
deriving DecidableEq

/-- The execution context: the current input row (`ExpressionEnv`). -/
structure ExpressionEnv where
  row : List (Option EvalValue)

/-- The tree-walking evaluator.  The `collate` case is
`CollateExpr.eval` from the source: error propagation, `nil` in / `nil`
out, re-tagging with an `EnsureCollate` convertibility check for byte
values, `evalToVarchar` for other values, and `flagExplicitCollation` on
the result.  The `introducer` case is `IntroducerExpr.eval` from the
source: it passes the inner value (without a nil check) to
`introducerCast` and sets `flagExplicitCollation` on the result. -/
def evalExpr : Expr → ExpressionEnv → EvalOutcome (Option EvalValue)
  | Expr.literal v, _ => EvalOutcome.ok v
  | Expr.column i, env => EvalOutcome.ok (env.row.getD i none)
  | Expr.collate inner tc, env =>
      match evalExpr inner env with
      | EvalOutcome.err e => EvalOutcome.err e
      | EvalOutcome.nilDeref => EvalOutcome.nilDeref
      | EvalOutcome.ok none => EvalOutcome.ok none
      | EvalOutcome.ok (some (EvalValue.bytes b)) =>
          if ensureCollate b.col.collation tc.collation then
            EvalOutcome.ok (some (EvalValue.bytes ((b.withCollation tc).setExplicitCollation)))
          else
            EvalOutcome.err ErrorKind.invalidArgument
      | EvalOutcome.ok (some v) =>
          match evalToVarchar v tc.collation with
          | EvalOutcome.ok b =>
              EvalOutcome.ok (some (EvalValue.bytes b.setExplicitCollation))
          | EvalOutcome.err e => EvalOutcome.err e
          | EvalOutcome.nilDeref => EvalOutcome.nilDeref
  | Expr.introducer inner tc, env =>
      match evalExpr inner env with
      | EvalOutcome.err e => EvalOutcome.err e
      | EvalOutcome.nilDeref => EvalOutcome.nilDeref
      | EvalOutcome.ok e =>
          match introducerCast e tc.collation with
          | EvalOutcome.ok b =>
              EvalOutcome.ok (some (EvalValue.bytes b.setExplicitCollation))
          | EvalOutcome.err er => EvalOutcome.err er
          | EvalOutcome.nilDeref => EvalOutcome.nilDeref

/-- The compile-time type descriptor `ctype`: type tag, typed collation,
and the two flag bits the embedded nodes use (`flagNullable`,
`flagExplicitCollation`). -/
structure Ctype where
  t : SqlType
  col : TypedCollation
  fNullable : Bool
  fExplicitCollation : Bool
deriving DecidableEq

/-- Modelled from the spec: the compile-time type of an out-of-schema
column reference; the catalog-resolved default is the nullable NULL
type. -/
def defaultCtype : Ctype :=
  ⟨SqlType.tnull, collationNull, true, false⟩

/-- Modelled from the spec: the type checker gives every literal node its
inferred result type and typed collation (`collationNull` and
`collationNumeric` are the source's constants for NULL and numeric
values). -/
def ctypeOfLiteral : Option EvalValue → Ctype
  | none => ⟨SqlType.tnull, collationNull, true, false⟩
  | some (EvalValue.int _) => ⟨SqlType.int64, collationNumeric, false, false⟩
  | some (EvalValue.bytes b) => ⟨b.sqlType, b.col, false, b.flagExplicitCollation⟩

/-- Modelled from the spec: the bytecode instruction set (spec sections
4.4 and 4.5).  `jumpIfNull` is the conditional forward skip emitted by the
null check; `collate` is the lightweight "rewrite collation metadata in
place" instruction; `convertXC` is the genuine "convert charset"
instruction (`asm.Convert_xc`); `introduce` is the single instruction
emitted for introducer nodes (`asm.Introduce`). -/
inductive Instr where
  | pushLiteral (v : Option EvalValue)
  | pushColumn (i : Nat)
  | jumpIfNull (target : Nat)
  | collate (tc : TypedCollation)
  | convertXC (t : SqlType) (col : CollationID)
  | introduce (t : SqlType) (tc : TypedCollation)
deriving DecidableEq

/-- Modelled from the spec: `compiler.compileNullCheck1` is not under src;
per spec section 4.4 the compiler emits a conditional forward skip ("if
current slot is NULL, jump to L") before operator instructions when the
operand may be NULL, with a placeholder target recorded for later
patching.  Returns the extended code and the placeholder's position. -/
def compileNullCheck1 (ct : Ctype) (code : List Instr) : List Instr × Option Nat :=
  if ct.fNullable then (code ++ [Instr.jumpIfNull 0], some code.length) else (code, none)

/-- Modelled from the spec: `asm.jumpDestination` is not under src; per
spec section 4.4 the placeholder jump recorded by the null check is
patched to the address following the operator's instruction span
(reserve-then-patch). -/
def jumpDestination (code : List Instr) (skip : Option Nat) : List Instr :=
  match skip with
  | none => code
  | some i => code.set i (Instr.jumpIfNull code.length)

/-- The single-pass code generator.  Leaf cases are modelled from the
spec (push the literal or the current row's column).  The `collate` case
is `CollateExpr.compile` from the source: compile the inner expression,
emit the null check, then branch on the inner compile-time type — for
`VarChar` check `EnsureCollate` (failing compilation with
`InvalidArgument` on incompatibility) and fall through to emitting the
`Collate` instruction, for `VarBinary` emit `Collate` without a check,
otherwise emit `Convert_xc` to `VarChar` under the target collation;
patch the null-check jump; the result type is `VarChar` with the node's
typed collation and `flagExplicitCollation | flagNullable` added.  The
`introducer` case is `IntroducerExpr.compile` from the source: compile
the inner expression (discarding its type), emit a single `Introduce`
instruction whose type is `VarBinary` for the binary target collation and
`VarChar` otherwise, and return that type with the node's collation and
exactly `flagExplicitCollation`. -/
def compileExpr (schema : List Ctype) : Expr → List Instr → Except ErrorKind (List Instr × Ctype)
  | Expr.literal v, code =>
      Except.ok (code ++ [Instr.pushLiteral v], ctypeOfLiteral v)
  | Expr.column i, code =>
      Except.ok (code ++ [Instr.pushColumn i], schema.getD i defaultCtype)
  | Expr.collate inner tc, code =>
      match compileExpr schema inner code with
      | Except.error e => Except.error e
      | Except.ok (code1, ct) =>
          let p := compileNullCheck1 ct code1
          match ct.t with
          | SqlType.varChar =>
              if ensureCollate ct.col.collation tc.collation then
                Except.ok (jumpDestination (p.1 ++ [Instr.collate tc]) p.2,
                  ⟨SqlType.varChar, tc, true, true⟩)
              else
                Except.error ErrorKind.invalidArgument
          | SqlType.varBinary =>
              Except.ok (jumpDestination (p.1 ++ [Instr.collate tc]) p.2,
                ⟨SqlType.varChar, tc, true, true⟩)
          | _ =>
              Except.ok (jumpDestination (p.1 ++ [Instr.convertXC SqlType.varChar tc.collation]) p.2,
                ⟨SqlType.varChar, tc, true, true⟩)
  | Expr.introducer inner tc, code =>
      match compileExpr schema inner code with
      | Except.error e => Except.error e
      | Except.ok (code1, _) =>
          let t := if tc.collation = CollationID.binaryID then SqlType.varBinary else SqlType.varChar
          Except.ok (code1 ++ [Instr.introduce t tc], ⟨t, tc, false, true⟩)

/-- The result of executing one instruction: continue at a new
instruction pointer with a new stack, or halt with an outcome. -/
inductive StepRes where
  | next (ip : Nat) (stack : List (Option EvalValue))
  | halt (o : EvalOutcome (Option EvalValue))

/-- Modelled from the spec: the effect of a single virtual-machine
instruction (spec sections 4.4 and 4.5).  Jumps move the instruction
pointer strictly forward (a non-forward jump is a compiler defect,
reported as `internal`, as are stack-shape violations).  The `collate`
instruction rewrites the collation metadata in place and marks the
explicit-collation flag (spec section 4.2); the `convertXC` instruction
performs the transcoding `evalToVarchar` does, likewise marking the
result; the `introduce` instruction reinterprets the top-of-stack value's
bytes in place, applying the padding rule at runtime, propagating NULL
(the spec's NULL-in/NULL-out default), and treating the byte sequence as
opaque binary for the binary target. -/
def execInstr (env : ExpressionEnv) (i : Instr) (ip : Nat)
    (stack : List (Option EvalValue)) : StepRes :=
  match i, stack with
  | Instr.pushLiteral v, s => StepRes.next (ip + 1) (v :: s)
  | Instr.pushColumn j, s => StepRes.next (ip + 1) (env.row.getD j none :: s)
  | Instr.jumpIfNull t, none :: s =>
      if ip < t then StepRes.next t (none :: s)
      else StepRes.halt (EvalOutcome.err ErrorKind.internal)
  | Instr.jumpIfNull _, some v :: s => StepRes.next (ip + 1) (some v :: s)
  | Instr.jumpIfNull _, [] => StepRes.halt (EvalOutcome.err ErrorKind.internal)
  | Instr.collate tc, some (EvalValue.bytes b) :: s =>
      StepRes.next (ip + 1)
        (some (EvalValue.bytes ((b.withCollation tc).setExplicitCollation)) :: s)
  | Instr.collate _, _ => StepRes.halt (EvalOutcome.err ErrorKind.internal)
  | Instr.convertXC _ col, some v :: s =>
      (match evalToVarchar v col with
      | EvalOutcome.ok b =>
          StepRes.next (ip + 1) (some (EvalValue.bytes b.setExplicitCollation) :: s)
      | EvalOutcome.err e => StepRes.halt (EvalOutcome.err e)
      | EvalOutcome.nilDeref => StepRes.halt EvalOutcome.nilDeref)
  | Instr.convertXC _ _, _ => StepRes.halt (EvalOutcome.err ErrorKind.internal)
  | Instr.introduce t tc, some w :: s =>
      if t = SqlType.varBinary then
        StepRes.next (ip + 1)
          (some (EvalValue.bytes (EvalBytes.setExplicitCollation
            ⟨SqlType.varBinary, rawBytes w, collationBinary, false⟩)) :: s)
      else
        StepRes.next (ip + 1)
          (some (EvalValue.bytes (EvalBytes.setExplicitCollation
            (newEvalText (padForCharset (charsetOf tc.collation) (rawBytes w))
              ⟨tc.collation, Coercibility.CoerceCoercible, Repertoire.ASCII⟩))) :: s)
  | Instr.introduce _ _, none :: s => StepRes.next (ip + 1) (none :: s)
  | Instr.introduce _ _, [] => StepRes.halt (EvalOutcome.err ErrorKind.internal)

/-- Modelled from the spec: the bytecode virtual machine (spec section
4.5).  It executes a fixed instruction stream against a value stack and
the current row; execution ends normally when the instruction pointer
leaves the stream with exactly one value remaining — the expression's
result.  The first argument is structural fuel; each executed instruction
consumes one unit (the stream is forward-only, so `length + 1` units
always suffice). -/
def runVM (code : List Instr) (env : ExpressionEnv) :
    Nat → Nat → List (Option EvalValue) → EvalOutcome (Option EvalValue)
  | 0, _, _ => EvalOutcome.err ErrorKind.internal
  | fuel + 1, ip, stack =>
    if ip < code.length then
      match execInstr env (code.getD ip (Instr.pushLiteral none)) ip stack with
      | StepRes.next ip2 s2 => runVM code env fuel ip2 s2
      | StepRes.halt o => o
    else
      match stack with
      | [v] => EvalOutcome.ok v
      | _ => EvalOutcome.err ErrorKind.internal

/-- Running a compiled program from the start on an empty stack, with
enough fuel for its forward-only instruction stream. -/
def runProgram (code : List Instr) (env : ExpressionEnv) : EvalOutcome (Option EvalValue) :=
  runVM code env (code.length + 1) 0 []

/-- Compiling a whole expression into a fresh program (`Compile(expr)`). -/
def compileProgram (schema : List Ctype) (e : Expr) : Except ErrorKind (List Instr × Ctype) :=
  compileExpr schema e []

/-- `Compile(expr).Run(row)` as a single outcome: a compile-time error is
reported as that error. -/
def compileAndRun (schema : List Ctype) (e : Expr) (env : ExpressionEnv) :
    EvalOutcome (Option EvalValue) :=
  match compileProgram schema e with
  | Except.ok (code, _) => runProgram code env
  | Except.error k => EvalOutcome.err k

/-- A runtime value conforms to a compile-time type descriptor: NULL
requires the nullable flag; an integer requires the integer type; a byte
string requires a string type, with matching collation id for character
strings and the binary collation for binary strings. -/
def conform : Option EvalValue → Ctype → Bool
  | none, ct => ct.fNullable
  | some (EvalValue.int _), ct => decide (ct.t = SqlType.int64)
  | some (EvalValue.bytes b), ct =>
      decide ((ct.t = SqlType.varChar ∨ ct.t = SqlType.varBinary) ∧
        (ct.t = SqlType.varChar → b.col.collation = ct.col.collation) ∧
        (ct.t = SqlType.varBinary → b.col.collation = CollationID.binaryID))

/-- Every column of the row conforms to the schema's compile-time type. -/
def rowConforms : List (Option EvalValue) → List Ctype → Bool
  | [], [] => true
  | v :: vs, c :: cs => conform v c && rowConforms vs cs
  | _, _ => false

/-- Well-formedness of a literal value: byte-string literals carry a
string type tag, and binary ones carry the binary collation. -/
def wfValue : Option EvalValue → Bool
  | some (EvalValue.bytes b) =>
      decide ((b.sqlType = SqlType.varChar ∨ b.sqlType = SqlType.varBinary) ∧
        (b.sqlType = SqlType.varBinary → b.col.collation = CollationID.binaryID))
  | _ => true

/-- Well-formedness of an expression: every literal value is well
formed. -/
def wfExpr : Expr → Bool
  | Expr.literal v => wfValue v
  | Expr.column _ => true
  | Expr.collate inner _ => wfExpr inner
  | Expr.introducer inner _ => wfExpr inner

/-- Whether an outcome is a non-NULL byte-string value. -/
def isOkSomeBytes : EvalOutcome (Option EvalValue) → Bool
  | EvalOutcome.ok (some (EvalValue.bytes _)) => true
  | _ => false

/-- Every introducer sub-expression's inner expression evaluates, on the
given row, to a non-NULL byte-string value (the shape the SQL grammar
guarantees, since an introducer prefixes a string literal). -/
def introSafe (env : ExpressionEnv) : Expr → Bool
  | Expr.literal _ => true
  | Expr.column _ => true
  | Expr.collate inner _ => introSafe env inner
  | Expr.introducer inner _ => introSafe env inner && isOkSomeBytes (evalExpr inner env)

/-- The generated parser's internal state (`yyParserImpl`): a scratch
value and a parse stack, standing for its fields. -/
structure YyParserImpl where
  lval : Nat
  stack : List Nat
deriving DecidableEq

/-- The package-level `zeroParser`, a zero-initialized `yyParserImpl`
used to reinitialize parsers for pooling. -/
def parserZero : YyParserImpl :=
  ⟨0, []⟩

/-- `yyParsePooled` from the source: check a parser out of the pool
(`sync.Pool.Get`, whose `New` function builds a zero-valued parser when
the pool is empty), run `parser.Parse(yylex)` — an arbitrary function
mutating the parser state and returning a status code — and, deferred on
every exit path, overwrite the parser with `zeroParser` and put it back.
The pool is modelled as the list of pooled parser objects; `Get` takes
the head and `Put` re-adds the object. -/
def yyParsePooled (parse : YyParserImpl → Nat → YyParserImpl × Int)
    (pool : List YyParserImpl) (yylex : Nat) : Int × List YyParserImpl :=
  let checkedOut : YyParserImpl × List YyParserImpl :=
    match pool with
    | [] => (⟨0, []⟩, [])
    | p :: ps => (p, ps)
  let r := parse checkedOut.1 yylex
  (r.2, parserZero :: checkedOut.2)

/-- Decidable equality for compile results. -/
instance {ε α : Type} [DecidableEq ε] [DecidableEq α] : DecidableEq (Except ε α) := fun x y =>
  match x, y with
  | Except.ok a, Except.ok b =>
      if h : a = b then Decidable.isTrue (by rw [h]) else
        Decidable.isFalse (fun hh => h (Except.ok.inj hh))
  | Except.ok _, Except.error _ => Decidable.isFalse (fun hh => Except.noConfusion hh)
  | Except.error _, Except.ok _ => Decidable.isFalse (fun hh => Except.noConfusion hh)
  | Except.error a, Except.error b =>
      if h : a = b then Decidable.isTrue (by rw [h]) else
        Decidable.isFalse (fun hh => h (Except.error.inj hh))

/-- A concrete explicit-collation target (`utf8mb4_general_ci COLLATE`
node collation), used in concrete instantiations. -/
def tcUtf8Explicit : TypedCollation :=
  ⟨CollationID.utf8mb4GeneralCi, Coercibility.CoerceExplicit, Repertoire.Unicode⟩

/-- A concrete coercible utf8mb4 collation (an introducer node's
collation), used in concrete instantiations. -/
def tcUtf8Coercible : TypedCollation :=
  ⟨CollationID.utf8mb4GeneralCi, Coercibility.CoerceCoercible, Repertoire.ASCII⟩

/-- A concrete implicit utf8mb4_bin column collation, used in concrete
instantiations. -/
def tcUtf8BinImplicit : TypedCollation :=
  ⟨CollationID.utf8mb4Bin, Coercibility.CoerceImplicit, Repertoire.Unicode⟩

/-- The empty row. -/
def envEmpty : ExpressionEnv :=
  ⟨[]⟩

/-- A one-column row holding the character string "ab" under
`tcUtf8BinImplicit`, used in concrete instantiations. -/
def wRowEnv : ExpressionEnv :=
  ⟨[some (EvalValue.bytes ⟨SqlType.varChar, [97, 98], tcUtf8BinImplicit, false⟩)]⟩

/-- The schema of `wRowEnv`: one nullable character-string column. -/
def wSchema : List Ctype :=
  [⟨SqlType.varChar, tcUtf8BinImplicit, true, false⟩]

theorem getD_append_add {α : Type} (l1 l2 : List α) (d : α) (k : Nat) :
    (l1 ++ l2).getD (l1.length + k) d = l2.getD k d := by
  induction l1 with
  | nil => simp
  | cons a t ih =>
      have h : t.length + 1 + k = (t.length + k) + 1 := by omega
      simp only [List.cons_append, List.length_cons, h, List.getD_cons_succ]
      exact ih

theorem getD_append_at {α : Type} (l1 : List α) (x : α) (l2 : List α) (d : α) :
    (l1 ++ x :: l2).getD l1.length d = x := by
  have h := getD_append_add l1 (x :: l2) d 0
  simpa using h

theorem getD_append_at1 {α : Type} (l1 : List α) (x y : α) (l2 : List α) (d : α) :
    (l1 ++ x :: y :: l2).getD (l1.length + 1) d = y := by
  have h := getD_append_add l1 (x :: y :: l2) d 1
  simpa using h

theorem set_append_len {α : Type} (l1 l2 : List α) (x : α) :
    (l1 ++ l2).set l1.length x = l1 ++ l2.set 0 x := by
  induction l1 with
  | nil => simp
  | cons a t ih => simp only [List.cons_append, List.length_cons, List.set_cons_succ, ih]

theorem jumpDestination_shape (pre : List Instr) (op : Instr) :
    jumpDestination ((pre ++ [Instr.jumpIfNull 0]) ++ [op]) (some pre.length)
      = pre ++ [Instr.jumpIfNull (pre.length + 2), op] := by
  show ((pre ++ [Instr.jumpIfNull 0]) ++ [op]).set pre.length
      (Instr.jumpIfNull ((pre ++ [Instr.jumpIfNull 0]) ++ [op]).length)
    = pre ++ [Instr.jumpIfNull (pre.length + 2), op]
  rw [List.append_assoc, set_append_len]
  simp [List.length_append]

theorem jumpDestination_none (code : List Instr) : jumpDestination code none = code := rfl

theorem jumpDestination_shape2 (pre : List Instr) (op : Instr) :
    jumpDestination (pre ++ [Instr.jumpIfNull 0, op]) (some pre.length)
      = pre ++ [Instr.jumpIfNull (pre.length + 2), op] := by
  show (pre ++ [Instr.jumpIfNull 0, op]).set pre.length
      (Instr.jumpIfNull (pre ++ [Instr.jumpIfNull 0, op]).length)
    = pre ++ [Instr.jumpIfNull (pre.length + 2), op]
  rw [set_append_len]
  simp [List.length_append]

theorem runVM_succ (code : List Instr) (env : ExpressionEnv) (f ip : Nat)
    (stack : List (Option EvalValue)) :
    runVM code env (f + 1) ip stack =
      if ip < code.length then
        match execInstr env (code.getD ip (Instr.pushLiteral none)) ip stack with
        | StepRes.next ip2 s2 => runVM code env f ip2 s2
        | StepRes.halt o => o
      else
        match stack with
        | [v] => EvalOutcome.ok v
        | _ => EvalOutcome.err ErrorKind.internal := rfl

theorem runVM_step (code : List Instr) (env : ExpressionEnv) (f ip : Nat)
    (stack : List (Option EvalValue)) (hip : ip < code.length) :
    runVM code env (f + 1) ip stack =
      match execInstr env (code.getD ip (Instr.pushLiteral none)) ip stack with
      | StepRes.next ip2 s2 => runVM code env f ip2 s2
      | StepRes.halt o => o := by
  rw [runVM_succ, if_pos hip]

theorem runVM_done (code : List Instr) (env : ExpressionEnv) (f ip : Nat)
    (v : Option EvalValue) (hip : ¬ ip < code.length) :
    runVM code env (f + 1) ip [v] = EvalOutcome.ok v := by
  rw [runVM_succ, if_neg hip]

theorem runVM_at_pushLiteral (code : List Instr) (env : ExpressionEnv) (f ip : Nat)
    (v : Option EvalValue) (stack : List (Option EvalValue)) (hip : ip < code.length)
    (h : code.getD ip (Instr.pushLiteral none) = Instr.pushLiteral v) :
    runVM code env (f + 1) ip stack = runVM code env f (ip + 1) (v :: stack) := by
  rw [runVM_step code env f ip stack hip, h]
  rfl

theorem runVM_at_pushColumn (code : List Instr) (env : ExpressionEnv) (f ip j : Nat)
    (stack : List (Option EvalValue)) (hip : ip < code.length)
    (h : code.getD ip (Instr.pushLiteral none) = Instr.pushColumn j) :
    runVM code env (f + 1) ip stack
      = runVM code env f (ip + 1) (env.row.getD j none :: stack) := by
  rw [runVM_step code env f ip stack hip, h]
  rfl

theorem runVM_at_jumpNone (code : List Instr) (env : ExpressionEnv) (f ip t : Nat)
    (stack : List (Option EvalValue)) (hip : ip < code.length)
    (h : code.getD ip (Instr.pushLiteral none) = Instr.jumpIfNull t) (hlt : ip < t) :
    runVM code env (f + 1) ip (none :: stack) = runVM code env f t (none :: stack) := by
  rw [runVM_step code env f ip (none :: stack) hip, h]
  simp [execInstr, hlt]

theorem runVM_at_jumpSome (code : List Instr) (env : ExpressionEnv) (f ip t : Nat)
    (v : EvalValue) (stack : List (Option EvalValue)) (hip : ip < code.length)
    (h : code.getD ip (Instr.pushLiteral none) = Instr.jumpIfNull t) :
    runVM code env (f + 1) ip (some v :: stack)
      = runVM code env f (ip + 1) (some v :: stack) := by
  rw [runVM_step code env f ip (some v :: stack) hip, h]
  rfl

theorem runVM_at_collate (code : List Instr) (env : ExpressionEnv) (f ip : Nat)
    (tc : TypedCollation) (b : EvalBytes) (stack : List (Option EvalValue))
    (hip : ip < code.length)
    (h : code.getD ip (Instr.pushLiteral none) = Instr.collate tc) :
    runVM code env (f + 1) ip (some (EvalValue.bytes b) :: stack)
      = runVM code env f (ip + 1)
          (some (EvalValue.bytes ((b.withCollation tc).setExplicitCollation)) :: stack) := by
  rw [runVM_step code env f ip (some (EvalValue.bytes b) :: stack) hip, h]
  rfl

theorem runVM_at_convert (code : List Instr) (env : ExpressionEnv) (f ip : Nat)
    (t : SqlType) (col : CollationID) (v : EvalValue) (stack : List (Option EvalValue))
    (hip : ip < code.length)
    (h : code.getD ip (Instr.pushLiteral none) = Instr.convertXC t col) :
    runVM code env (f + 1) ip (some v :: stack)
      = runVM code env f (ip + 1)
          (some (EvalValue.bytes (EvalBytes.setExplicitCollation
            (newEvalText (convertToCharset (charsetOf col) (rawBytes v))
              ⟨col, Coercibility.CoerceCoercible, Repertoire.ASCII⟩))) :: stack) := by
  rw [runVM_step code env f ip (some v :: stack) hip, h]
  rfl

theorem runVM_at_introduceNone (code : List Instr) (env : ExpressionEnv) (f ip : Nat)
    (t : SqlType) (tc : TypedCollation) (stack : List (Option EvalValue))
    (hip : ip < code.length)
    (h : code.getD ip (Instr.pushLiteral none) = Instr.introduce t tc) :
    runVM code env (f + 1) ip (none :: stack) = runVM code env f (ip + 1) (none :: stack) := by
  rw [runVM_step code env f ip (none :: stack) hip, h]
  rfl

theorem runVM_at_introduceBin (code : List Instr) (env : ExpressionEnv) (f ip : Nat)
    (tc : TypedCollation) (w : EvalValue) (stack : List (Option EvalValue))
    (hip : ip < code.length)
    (h : code.getD ip (Instr.pushLiteral none) = Instr.introduce SqlType.varBinary tc) :
    runVM code env (f + 1) ip (some w :: stack)
      = runVM code env f (ip + 1)
          (some (EvalValue.bytes (EvalBytes.setExplicitCollation
            ⟨SqlType.varBinary, rawBytes w, collationBinary, false⟩)) :: stack) := by
  rw [runVM_step code env f ip (some w :: stack) hip, h]
  simp [execInstr]

theorem runVM_at_introduceChar (code : List Instr) (env : ExpressionEnv) (f ip : Nat)
    (tc : TypedCollation) (w : EvalValue) (stack : List (Option EvalValue))
    (hip : ip < code.length)
    (h : code.getD ip (Instr.pushLiteral none) = Instr.introduce SqlType.varChar tc) :
    runVM code env (f + 1) ip (some w :: stack)
      = runVM code env f (ip + 1)
          (some (EvalValue.bytes (EvalBytes.setExplicitCollation
            (newEvalText (padForCharset (charsetOf tc.collation) (rawBytes w))
              ⟨tc.collation, Coercibility.CoerceCoercible, Repertoire.ASCII⟩))) :: stack) := by
  rw [runVM_step code env f ip (some w :: stack) hip, h]
  simp [execInstr]

theorem rowConforms_getD (row : List (Option EvalValue)) (schema : List Ctype)
    (h : rowConforms row schema = true) (i : Nat) :
    conform (row.getD i none) (schema.getD i defaultCtype) = true := by
  induction row generalizing schema i with
  | nil =>
      cases schema with
      | nil => cases i <;> rfl
      | cons c cs => simp [rowConforms] at h
  | cons v vs ih =>
      cases schema with
      | nil => simp [rowConforms] at h
      | cons c cs =>
          have h2 : conform v c = true ∧ rowConforms vs cs = true := by
            simpa [rowConforms, Bool.and_eq_true] using h
          cases i with
          | zero => simpa using h2.1
          | succ j => simpa using ih cs h2.2 j

theorem conform_ctypeOfLiteral (v : Option EvalValue) (h : wfValue v = true) :
    conform v (ctypeOfLiteral v) = true := by
  cases v with
  | none => rfl
  | some w =>
      cases w with
      | int i => rfl
      | bytes b =>
          simp only [wfValue] at h
          have h2 := of_decide_eq_true h
          simp only [conform, ctypeOfLiteral]
          rw [decide_eq_true_eq]
          refine ⟨h2.1, ?_, h2.2⟩
          intro hh
          trivial

theorem isOkSomeBytes_elim (o : EvalOutcome (Option EvalValue))
    (h : isOkSomeBytes o = true) :
    ∃ b, o = EvalOutcome.ok (some (EvalValue.bytes b)) := by
  cases o with
  | ok v =>
      cases v with
      | none => simp [isOkSomeBytes] at h
      | some w =>
          cases w with
          | bytes b => exact ⟨b, rfl⟩
          | int i => simp [isOkSomeBytes] at h
  | err e => simp [isOkSomeBytes] at h
  | nilDeref => simp [isOkSomeBytes] at h

theorem ensureCollate_binary (x : CollationID) :
    ensureCollate CollationID.binaryID x = true := by
  simp [ensureCollate]

theorem ensureCollate_refl (x : CollationID) : ensureCollate x x = true := by
  simp [ensureCollate]

theorem lt_len_cons {α : Type} (l1 : List α) (x : α) (l2 : List α) :
    l1.length < (l1 ++ x :: l2).length := by
  simp

theorem lt_len_cons1 {α : Type} (l1 : List α) (x y : α) (l2 : List α) :
    l1.length + 1 < (l1 ++ x :: y :: l2).length := by
  simp

theorem run_skip (codeIn : List Instr) (env : ExpressionEnv) (op : Instr)
    (rest : List Instr) (stack : List (Option EvalValue)) (f : Nat) :
    runVM (codeIn ++ Instr.jumpIfNull (codeIn.length + 2) :: op :: rest) env (f + 1)
        codeIn.length (none :: stack)
      = runVM (codeIn ++ Instr.jumpIfNull (codeIn.length + 2) :: op :: rest) env f
          (codeIn.length + 2) (none :: stack) := by
  exact runVM_at_jumpNone _ env f codeIn.length (codeIn.length + 2) stack
    (lt_len_cons codeIn _ _) (getD_append_at codeIn _ _ _) (by omega)

theorem compileRunAgrees (schema : List Ctype) (env : ExpressionEnv)
    (hrow : rowConforms env.row schema = true) :
    ∀ (e : Expr) (code0 code1 : List Instr) (ct : Ctype),
      wfExpr e = true → introSafe env e = true →
      compileExpr schema e code0 = Except.ok (code1, ct) →
      ∃ (v : Option EvalValue) (k : Nat),
        evalExpr e env = EvalOutcome.ok v ∧
        conform v ct = true ∧
        k + code0.length ≤ code1.length ∧
        ∀ (rest : List Instr) (stack : List (Option EvalValue)) (f : Nat),
          runVM (code1 ++ rest) env (f + k) code0.length stack
            = runVM (code1 ++ rest) env f code1.length (v :: stack) := by
  intro e
  induction e with
  | literal v =>
      intro code0 code1 ct hw hs hc
      simp only [compileExpr, Except.ok.injEq, Prod.mk.injEq] at hc
      obtain ⟨hc1, hc2⟩ := hc
      subst hc1
      subst hc2
      refine ⟨v, 1, rfl, conform_ctypeOfLiteral v (by simpa [wfExpr] using hw), ?_, ?_⟩
      · simp
        omega
      · intro rest stack f
        have hsh : (code0 ++ [Instr.pushLiteral v]) ++ rest
            = code0 ++ Instr.pushLiteral v :: rest := by simp
        have hlen : (code0 ++ [Instr.pushLiteral v]).length = code0.length + 1 := by simp
        rw [hsh, hlen]
        exact runVM_at_pushLiteral _ env f code0.length v stack
          (lt_len_cons code0 _ rest) (getD_append_at code0 _ rest _)
  | column i =>
      intro code0 code1 ct hw hs hc
      simp only [compileExpr, Except.ok.injEq, Prod.mk.injEq] at hc
      obtain ⟨hc1, hc2⟩ := hc
      subst hc1
      subst hc2
      refine ⟨env.row.getD i none, 1, rfl, rowConforms_getD env.row schema hrow i, ?_, ?_⟩
      · simp
        omega
      · intro rest stack f
        have hsh : (code0 ++ [Instr.pushColumn i]) ++ rest
            = code0 ++ Instr.pushColumn i :: rest := by simp
        have hlen : (code0 ++ [Instr.pushColumn i]).length = code0.length + 1 := by simp
        rw [hsh, hlen]
        exact runVM_at_pushColumn _ env f code0.length i stack
          (lt_len_cons code0 _ rest) (getD_append_at code0 _ rest _)
  | collate inner tc ih =>
      intro code0 code1 ct hw hs hc
      simp only [compileExpr] at hc
      cases hin : compileExpr schema inner code0 with
      | error e0 => rw [hin] at hc; cases hc
      | ok pr =>
          obtain ⟨codeIn, ctIn⟩ := pr
          rw [hin] at hc
          obtain ⟨vIn, kIn, hevalIn, hconfIn, hlenIn, hrunIn⟩ :=
            ih code0 codeIn ctIn (by simpa [wfExpr] using hw) (by simpa [introSafe] using hs) hin
          obtain ⟨tIn, colIn, nIn, eIn⟩ := ctIn
          cases tIn with
          | varChar =>
              cases hen : ensureCollate colIn.collation tc.collation with
              | false => simp [compileNullCheck1, hen] at hc
              | true =>
                  cases nIn with
                  | true =>
                      simp [compileNullCheck1, hen, Except.ok.injEq, Prod.mk.injEq] at hc
                      obtain ⟨hc1, hc2⟩ := hc
                      rw [jumpDestination_shape2 codeIn (Instr.collate tc)] at hc1
                      subst hc1
                      subst hc2
                      cases vIn with
                      | none =>
                          refine ⟨none, kIn + 1, ?_, rfl, ?_, ?_⟩
                          · simp only [evalExpr]
                            rw [hevalIn]
                          · simp
                            omega
                          · intro rest stack f
                            have hassoc : (codeIn ++ [Instr.jumpIfNull (codeIn.length + 2), Instr.collate tc]) ++ rest
                                = codeIn ++ Instr.jumpIfNull (codeIn.length + 2) :: Instr.collate tc :: rest := by simp
                            have hlen2 : (codeIn ++ [Instr.jumpIfNull (codeIn.length + 2), Instr.collate tc]).length
                                = codeIn.length + 2 := by simp
                            rw [hassoc, hlen2]
                            have hfe : f + (kIn + 1) = (f + 1) + kIn := by omega
                            rw [hfe, hrunIn (Instr.jumpIfNull (codeIn.length + 2) :: Instr.collate tc :: rest) stack (f + 1)]
                            exact run_skip codeIn env (Instr.collate tc) rest stack f
                      | some w =>
                          cases w with
                          | int i => simp [conform] at hconfIn
                          | bytes b =>
                              have hcc : b.col.collation = colIn.collation := by
                                simp only [conform] at hconfIn
                                exact (of_decide_eq_true hconfIn).2.1 trivial
                              have hensB : ensureCollate b.col.collation tc.collation = true := by
                                rw [hcc]
                                exact hen
                              refine ⟨some (EvalValue.bytes ((b.withCollation tc).setExplicitCollation)), kIn + 2, ?_, ?_, ?_, ?_⟩
                              · simp only [evalExpr]
                                rw [hevalIn]
                                simp [hensB]
                              · simp [conform, EvalBytes.withCollation, EvalBytes.setExplicitCollation]
                              · simp
                                omega
                              · intro rest stack f
                                have hassoc : (codeIn ++ [Instr.jumpIfNull (codeIn.length + 2), Instr.collate tc]) ++ rest
                                    = codeIn ++ Instr.jumpIfNull (codeIn.length + 2) :: Instr.collate tc :: rest := by simp
                                have hlen2 : (codeIn ++ [Instr.jumpIfNull (codeIn.length + 2), Instr.collate tc]).length
                                    = codeIn.length + 2 := by simp
                                rw [hassoc, hlen2]
                                have hfe : f + (kIn + 2) = (f + 2) + kIn := by omega
                                rw [hfe, hrunIn (Instr.jumpIfNull (codeIn.length + 2) :: Instr.collate tc :: rest) stack (f + 2)]
                                have h2 : f + 2 = (f + 1) + 1 := rfl
                                rw [h2]
                                rw [runVM_at_jumpSome _ env (f + 1) codeIn.length (codeIn.length + 2) (EvalValue.bytes b) stack
                                  (lt_len_cons codeIn _ _) (getD_append_at codeIn _ _ _)]
                                rw [runVM_at_collate _ env f (codeIn.length + 1) tc b stack
                                  (lt_len_cons1 codeIn _ _ rest) (getD_append_at1 codeIn _ _ rest _)]
                  | false =>
                      simp [compileNullCheck1, hen, Except.ok.injEq, Prod.mk.injEq, jumpDestination_none] at hc
                      obtain ⟨hc1, hc2⟩ := hc
                      subst hc1
                      subst hc2
                      cases vIn with
                      | none => simp [conform] at hconfIn
                      | some w =>
                          cases w with
                          | int i => simp [conform] at hconfIn
                          | bytes b =>
                              have hcc : b.col.collation = colIn.collation := by
                                simp only [conform] at hconfIn
                                exact (of_decide_eq_true hconfIn).2.1 trivial
                              have hensB : ensureCollate b.col.collation tc.collation = true := by
                                rw [hcc]
                                exact hen
                              refine ⟨some (EvalValue.bytes ((b.withCollation tc).setExplicitCollation)), kIn + 1, ?_, ?_, ?_, ?_⟩
                              · simp only [evalExpr]
                                rw [hevalIn]
                                simp [hensB]
                              · simp [conform, EvalBytes.withCollation, EvalBytes.setExplicitCollation]
                              · simp
                                omega
                              · intro rest stack f
                                have hassoc : (codeIn ++ [Instr.collate tc]) ++ rest
                                    = codeIn ++ Instr.collate tc :: rest := by simp
                                have hlen2 : (codeIn ++ [Instr.collate tc]).length = codeIn.length + 1 := by simp
                                rw [hassoc, hlen2]
                                have hfe : f + (kIn + 1) = (f + 1) + kIn := by omega
                                rw [hfe, hrunIn (Instr.collate tc :: rest) stack (f + 1)]
                                rw [runVM_at_collate _ env f codeIn.length tc b stack
                                  (lt_len_cons codeIn _ _) (getD_append_at codeIn _ _ _)]
          | varBinary =>
              cases nIn with
              | true =>
                  simp [compileNullCheck1, Except.ok.injEq, Prod.mk.injEq] at hc
                  obtain ⟨hc1, hc2⟩ := hc
                  rw [jumpDestination_shape2 codeIn (Instr.collate tc)] at hc1
                  subst hc1
                  subst hc2
                  cases vIn with
                  | none =>
                          refine ⟨none, kIn + 1, ?_, rfl, ?_, ?_⟩
                          · simp only [evalExpr]
                            rw [hevalIn]
                          · simp
                            omega
                          · intro rest stack f
                            have hassoc : (codeIn ++ [Instr.jumpIfNull (codeIn.length + 2), Instr.collate tc]) ++ rest
                                = codeIn ++ Instr.jumpIfNull (codeIn.length + 2) :: Instr.collate tc :: rest := by simp
                            have hlen2 : (codeIn ++ [Instr.jumpIfNull (codeIn.length + 2), Instr.collate tc]).length
                                = codeIn.length + 2 := by simp
                            rw [hassoc, hlen2]
                            have hfe : f + (kIn + 1) = (f + 1) + kIn := by omega
                            rw [hfe, hrunIn (Instr.jumpIfNull (codeIn.length + 2) :: Instr.collate tc :: rest) stack (f + 1)]
                            exact run_skip codeIn env (Instr.collate tc) rest stack f
                  | some w =>
                      cases w with
                      | int i => simp [conform] at hconfIn
                      | bytes b =>
                          have hbc : b.col.collation = CollationID.binaryID := by
                            simp only [conform] at hconfIn
                            exact (of_decide_eq_true hconfIn).2.2 trivial
                          have hensB : ensureCollate b.col.collation tc.collation = true := by
                            rw [hbc]
                            exact ensureCollate_binary _
                          refine ⟨some (EvalValue.bytes ((b.withCollation tc).setExplicitCollation)), kIn + 2, ?_, ?_, ?_, ?_⟩
                          · simp only [evalExpr]
                            rw [hevalIn]
                            simp [hensB]
                          · simp [conform, EvalBytes.withCollation, EvalBytes.setExplicitCollation]
                          · simp
                            omega
                          · intro rest stack f
                            have hassoc : (codeIn ++ [Instr.jumpIfNull (codeIn.length + 2), Instr.collate tc]) ++ rest
                                = codeIn ++ Instr.jumpIfNull (codeIn.length + 2) :: Instr.collate tc :: rest := by simp
                            have hlen2 : (codeIn ++ [Instr.jumpIfNull (codeIn.length + 2), Instr.collate tc]).length
                                = codeIn.length + 2 := by simp
                            rw [hassoc, hlen2]
                            have hfe : f + (kIn + 2) = (f + 2) + kIn := by omega
                            rw [hfe, hrunIn (Instr.jumpIfNull (codeIn.length + 2) :: Instr.collate tc :: rest) stack (f + 2)]
                            have h2 : f + 2 = (f + 1) + 1 := rfl
                            rw [h2]
                            rw [runVM_at_jumpSome _ env (f + 1) codeIn.length (codeIn.length + 2) (EvalValue.bytes b) stack
                              (lt_len_cons codeIn _ _) (getD_append_at codeIn _ _ _)]
                            rw [runVM_at_collate _ env f (codeIn.length + 1) tc b stack
                              (lt_len_cons1 codeIn _ _ rest) (getD_append_at1 codeIn _ _ rest _)]
              | false =>
                  simp [compileNullCheck1, Except.ok.injEq, Prod.mk.injEq, jumpDestination_none] at hc
                  obtain ⟨hc1, hc2⟩ := hc
                  subst hc1
                  subst hc2
                  cases vIn with
                  | none => simp [conform] at hconfIn
                  | some w =>
                      cases w with
                      | int i => simp [conform] at hconfIn
                      | bytes b =>
                          have hbc : b.col.collation = CollationID.binaryID := by
                            simp only [conform] at hconfIn
                            exact (of_decide_eq_true hconfIn).2.2 trivial
                          have hensB : ensureCollate b.col.collation tc.collation = true := by
                            rw [hbc]
                            exact ensureCollate_binary _
                          refine ⟨some (EvalValue.bytes ((b.withCollation tc).setExplicitCollation)), kIn + 1, ?_, ?_, ?_, ?_⟩
                          · simp only [evalExpr]
                            rw [hevalIn]
                            simp [hensB]
                          · simp [conform, EvalBytes.withCollation, EvalBytes.setExplicitCollation]
                          · simp
                            omega
                          · intro rest stack f
                            have hassoc : (codeIn ++ [Instr.collate tc]) ++ rest
                                = codeIn ++ Instr.collate tc :: rest := by simp
                            have hlen2 : (codeIn ++ [Instr.collate tc]).length = codeIn.length + 1 := by simp
                            rw [hassoc, hlen2]
                            have hfe : f + (kIn + 1) = (f + 1) + kIn := by omega
                            rw [hfe, hrunIn (Instr.collate tc :: rest) stack (f + 1)]
                            rw [runVM_at_collate _ env f codeIn.length tc b stack
                              (lt_len_cons codeIn _ _) (getD_append_at codeIn _ _ _)]
          | int64 =>
              cases nIn with
              | true =>
                  simp [compileNullCheck1, Except.ok.injEq, Prod.mk.injEq] at hc
                  obtain ⟨hc1, hc2⟩ := hc
                  rw [jumpDestination_shape2 codeIn (Instr.convertXC SqlType.varChar tc.collation)] at hc1
                  subst hc1
                  subst hc2
                  cases vIn with
                  | none =>
                          refine ⟨none, kIn + 1, ?_, rfl, ?_, ?_⟩
                          · simp only [evalExpr]
                            rw [hevalIn]
                          · simp
                            omega
                          · intro rest stack f
                            have hassoc : (codeIn ++ [Instr.jumpIfNull (codeIn.length + 2), Instr.convertXC SqlType.varChar tc.collation]) ++ rest
                                = codeIn ++ Instr.jumpIfNull (codeIn.length + 2) :: Instr.convertXC SqlType.varChar tc.collation :: rest := by simp
                            have hlen2 : (codeIn ++ [Instr.jumpIfNull (codeIn.length + 2), Instr.convertXC SqlType.varChar tc.collation]).length
                                = codeIn.length + 2 := by simp
                            rw [hassoc, hlen2]
                            have hfe : f + (kIn + 1) = (f + 1) + kIn := by omega
                            rw [hfe, hrunIn (Instr.jumpIfNull (codeIn.length + 2) :: Instr.convertXC SqlType.varChar tc.collation :: rest) stack (f + 1)]
                            exact run_skip codeIn env (Instr.convertXC SqlType.varChar tc.collation) rest stack f
                  | some w =>
                      cases w with
                      | bytes b => simp [conform] at hconfIn
                      | int i =>
                          refine ⟨some (EvalValue.bytes ((newEvalText (convertToCharset (charsetOf tc.collation) (rawBytes (EvalValue.int i))) ⟨tc.collation, Coercibility.CoerceCoercible, Repertoire.ASCII⟩).setExplicitCollation)), kIn + 2, ?_, ?_, ?_, ?_⟩
                          · simp only [evalExpr]
                            rw [hevalIn]
                            rfl
                          · simp [conform, newEvalText, EvalBytes.setExplicitCollation]
                          · simp
                            omega
                          · intro rest stack f
                            have hassoc : (codeIn ++ [Instr.jumpIfNull (codeIn.length + 2), Instr.convertXC SqlType.varChar tc.collation]) ++ rest
                                = codeIn ++ Instr.jumpIfNull (codeIn.length + 2) :: Instr.convertXC SqlType.varChar tc.collation :: rest := by simp
                            have hlen2 : (codeIn ++ [Instr.jumpIfNull (codeIn.length + 2), Instr.convertXC SqlType.varChar tc.collation]).length
                                = codeIn.length + 2 := by simp
                            rw [hassoc, hlen2]
                            have hfe : f + (kIn + 2) = (f + 2) + kIn := by omega
                            rw [hfe, hrunIn (Instr.jumpIfNull (codeIn.length + 2) :: Instr.convertXC SqlType.varChar tc.collation :: rest) stack (f + 2)]
                            have h2 : f + 2 = (f + 1) + 1 := rfl
                            rw [h2]
                            rw [runVM_at_jumpSome _ env (f + 1) codeIn.length (codeIn.length + 2) (EvalValue.int i) stack
                              (lt_len_cons codeIn _ _) (getD_append_at codeIn _ _ _)]
                            rw [runVM_at_convert _ env f (codeIn.length + 1) SqlType.varChar tc.collation (EvalValue.int i) stack
                              (lt_len_cons1 codeIn _ _ rest) (getD_append_at1 codeIn _ _ rest _)]
              | false =>
                  simp [compileNullCheck1, Except.ok.injEq, Prod.mk.injEq, jumpDestination_none] at hc
                  obtain ⟨hc1, hc2⟩ := hc
                  subst hc1
                  subst hc2
                  cases vIn with
                  | none => simp [conform] at hconfIn
                  | some w =>
                      cases w with
                      | bytes b => simp [conform] at hconfIn
                      | int i =>
                          refine ⟨some (EvalValue.bytes ((newEvalText (convertToCharset (charsetOf tc.collation) (rawBytes (EvalValue.int i))) ⟨tc.collation, Coercibility.CoerceCoercible, Repertoire.ASCII⟩).setExplicitCollation)), kIn + 1, ?_, ?_, ?_, ?_⟩
                          · simp only [evalExpr]
                            rw [hevalIn]
                            rfl
                          · simp [conform, newEvalText, EvalBytes.setExplicitCollation]
                          · simp
                            omega
                          · intro rest stack f
                            have hassoc : (codeIn ++ [Instr.convertXC SqlType.varChar tc.collation]) ++ rest
                                = codeIn ++ Instr.convertXC SqlType.varChar tc.collation :: rest := by simp
                            have hlen2 : (codeIn ++ [Instr.convertXC SqlType.varChar tc.collation]).length = codeIn.length + 1 := by simp
                            rw [hassoc, hlen2]
                            have hfe : f + (kIn + 1) = (f + 1) + kIn := by omega
                            rw [hfe, hrunIn (Instr.convertXC SqlType.varChar tc.collation :: rest) stack (f + 1)]
                            rw [runVM_at_convert _ env f codeIn.length SqlType.varChar tc.collation (EvalValue.int i) stack
                              (lt_len_cons codeIn _ _) (getD_append_at codeIn _ _ _)]
          | tnull =>
              cases nIn with
              | true =>
                  simp [compileNullCheck1, Except.ok.injEq, Prod.mk.injEq] at hc
                  obtain ⟨hc1, hc2⟩ := hc
                  rw [jumpDestination_shape2 codeIn (Instr.convertXC SqlType.varChar tc.collation)] at hc1
                  subst hc1
                  subst hc2
                  cases vIn with
                  | none =>
                          refine ⟨none, kIn + 1, ?_, rfl, ?_, ?_⟩
                          · simp only [evalExpr]
                            rw [hevalIn]
                          · simp
                            omega
                          · intro rest stack f
                            have hassoc : (codeIn ++ [Instr.jumpIfNull (codeIn.length + 2), Instr.convertXC SqlType.varChar tc.collation]) ++ rest
                                = codeIn ++ Instr.jumpIfNull (codeIn.length + 2) :: Instr.convertXC SqlType.varChar tc.collation :: rest := by simp
                            have hlen2 : (codeIn ++ [Instr.jumpIfNull (codeIn.length + 2), Instr.convertXC SqlType.varChar tc.collation]).length
                                = codeIn.length + 2 := by simp
                            rw [hassoc, hlen2]
                            have hfe : f + (kIn + 1) = (f + 1) + kIn := by omega
                            rw [hfe, hrunIn (Instr.jumpIfNull (codeIn.length + 2) :: Instr.convertXC SqlType.varChar tc.collation :: rest) stack (f + 1)]
                            exact run_skip codeIn env (Instr.convertXC SqlType.varChar tc.collation) rest stack f
                  | some w =>
                      cases w with
                      | bytes b => simp [conform] at hconfIn
                      | int i => simp [conform] at hconfIn
              | false =>
                  simp [compileNullCheck1, Except.ok.injEq, Prod.mk.injEq, jumpDestination_none] at hc
                  obtain ⟨hc1, hc2⟩ := hc
                  subst hc1
                  subst hc2
                  cases vIn with
                  | none => simp [conform] at hconfIn
                  | some w =>
                      cases w with
                      | bytes b => simp [conform] at hconfIn
                      | int i => simp [conform] at hconfIn
  | introducer inner tc ih =>
      intro code0 code1 ct hw hs hc
      simp only [compileExpr] at hc
      cases hin : compileExpr schema inner code0 with
      | error e0 => rw [hin] at hc; cases hc
      | ok pr =>
          obtain ⟨codeIn, ctIn⟩ := pr
          rw [hin] at hc
          have hs2 : introSafe env inner = true ∧ isOkSomeBytes (evalExpr inner env) = true := by
            simpa [introSafe, Bool.and_eq_true] using hs
          obtain ⟨vIn, kIn, hevalIn, hconfIn, hlenIn, hrunIn⟩ :=
            ih code0 codeIn ctIn (by simpa [wfExpr] using hw) hs2.1 hin
          obtain ⟨b, hb⟩ := isOkSomeBytes_elim _ hs2.2
          rw [hevalIn] at hb
          injection hb with hv
          subst hv
          by_cases hbin : tc.collation = CollationID.binaryID
          · simp [hbin, Except.ok.injEq, Prod.mk.injEq] at hc
            obtain ⟨hc1, hc2⟩ := hc
            subst hc1
            subst hc2
            refine ⟨some (EvalValue.bytes (EvalBytes.setExplicitCollation
              ⟨SqlType.varBinary, rawBytes (EvalValue.bytes b), collationBinary, false⟩)), kIn + 1, ?_, ?_, ?_, ?_⟩
            · simp only [evalExpr]
              rw [hevalIn]
              simp [introducerCast, hbin, evalToBinary]
            · simp [conform, collationBinary, EvalBytes.setExplicitCollation]
            · simp
              omega
            · intro rest stack f
              have hassoc : (codeIn ++ [Instr.introduce SqlType.varBinary tc]) ++ rest
                  = codeIn ++ Instr.introduce SqlType.varBinary tc :: rest := by simp
              have hlen2 : (codeIn ++ [Instr.introduce SqlType.varBinary tc]).length
                  = codeIn.length + 1 := by simp
              rw [hassoc, hlen2]
              have hfe : f + (kIn + 1) = (f + 1) + kIn := by omega
              rw [hfe, hrunIn (Instr.introduce SqlType.varBinary tc :: rest) stack (f + 1)]
              rw [runVM_at_introduceBin _ env f codeIn.length tc (EvalValue.bytes b) stack
                (lt_len_cons codeIn _ _) (getD_append_at codeIn _ _ _)]
          · simp [hbin, Except.ok.injEq, Prod.mk.injEq] at hc
            obtain ⟨hc1, hc2⟩ := hc
            subst hc1
            subst hc2
            refine ⟨some (EvalValue.bytes (EvalBytes.setExplicitCollation
              (newEvalText (padForCharset (charsetOf tc.collation) b.bytes)
                ⟨tc.collation, Coercibility.CoerceCoercible, Repertoire.ASCII⟩))), kIn + 1, ?_, ?_, ?_, ?_⟩
            · simp only [evalExpr]
              rw [hevalIn]
              simp [introducerCast, hbin]
            · simp [conform, newEvalText, EvalBytes.setExplicitCollation]
            · simp
              omega
            · intro rest stack f
              have hassoc : (codeIn ++ [Instr.introduce SqlType.varChar tc]) ++ rest
                  = codeIn ++ Instr.introduce SqlType.varChar tc :: rest := by simp
              have hlen2 : (codeIn ++ [Instr.introduce SqlType.varChar tc]).length
                  = codeIn.length + 1 := by simp
              rw [hassoc, hlen2]
              have hfe : f + (kIn + 1) = (f + 1) + kIn := by omega
              rw [hfe, hrunIn (Instr.introduce SqlType.varChar tc :: rest) stack (f + 1)]
              rw [runVM_at_introduceChar _ env f codeIn.length tc (EvalValue.bytes b) stack
                (lt_len_cons codeIn _ _) (getD_append_at codeIn _ _ _)]
              rfl

theorem compileProgram_run_eq_eval (schema : List Ctype) (env : ExpressionEnv) (e : Expr)
    (code : List Instr) (ct : Ctype)
    (hrow : rowConforms env.row schema = true)
    (hw : wfExpr e = true) (hs : introSafe env e = true)
    (hc : compileProgram schema e = Except.ok (code, ct)) :
    runProgram code env = evalExpr e env := by
  obtain ⟨v, k, heval, hconf, hlen, hrun⟩ :=
    compileRunAgrees schema env hrow e [] code ct hw hs hc
  have hk : k ≤ code.length := by simpa using hlen
  have h1 := hrun [] [] (code.length + 1 - k)
  rw [List.append_nil] at h1
  have hf : (code.length + 1 - k) + k = code.length + 1 := by omega
  rw [hf] at h1
  obtain ⟨g, hg⟩ : ∃ g, code.length + 1 - k = g + 1 := ⟨code.length - k, by omega⟩
  rw [hg] at h1
  rw [runVM_done code env g code.length v (by omega)] at h1
  rw [heval]
  simpa [runProgram] using h1

/-- Claim C1 counterexample: for the introducer node `_utf8mb4` applied to
an inner expression evaluating to the integer 1 (a non-byte-string value)
on the empty row, the compiled program and the interpreter disagree: the
interpreter dereferences a nil pointer in `introducerCast` while the
compiled program yields a value, so the two paths are not equivalent and
do not fail with identical error kinds. -/
theorem c1_counterexample :
    compileAndRun [] (Expr.introducer (Expr.literal (some (EvalValue.int 1))) tcUtf8Coercible) envEmpty
      ≠ evalExpr (Expr.introducer (Expr.literal (some (EvalValue.int 1))) tcUtf8Coercible) envEmpty
    ∧ evalExpr (Expr.introducer (Expr.literal (some (EvalValue.int 1))) tcUtf8Coercible) envEmpty
      = EvalOutcome.nilDeref := by
  decide

/-- Claim C1 (amended): for every well-formed COLLATE or introducer
expression over literal and column leaves, every row conforming to the
compilation schema, and every introducer sub-expression whose inner
expression evaluates to a non-NULL byte-string value on that row (the
shape the SQL grammar guarantees for introducers), if compilation
succeeds then running the compiled program yields exactly the
interpreter's outcome: the same value (type, bytes, collation) or the
same error kind. -/
theorem c1_compiled_equals_interpreted (schema : List Ctype) (env : ExpressionEnv) (e : Expr)
    (code : List Instr) (ct : Ctype)
    (hrow : rowConforms env.row schema = true)
    (hw : wfExpr e = true) (hs : introSafe env e = true)
    (hc : compileProgram schema e = Except.ok (code, ct)) :
    runProgram code env = evalExpr e env :=
  compileProgram_run_eq_eval schema env e code ct hrow hw hs hc

/-- Witness for the amended claim C1: a COLLATE node over a nullable
character-string column, compiled against a one-column schema and run on
a concrete row. -/
theorem c1_witness :
    runProgram [Instr.pushColumn 0, Instr.jumpIfNull 3, Instr.collate tcUtf8Explicit] wRowEnv
      = evalExpr (Expr.collate (Expr.column 0) tcUtf8Explicit) wRowEnv :=
  c1_compiled_equals_interpreted wSchema wRowEnv (Expr.collate (Expr.column 0) tcUtf8Explicit)
    [Instr.pushColumn 0, Instr.jumpIfNull 3, Instr.collate tcUtf8Explicit]
    ⟨SqlType.varChar, tcUtf8Explicit, true, true⟩
    (by decide) (by decide) (by decide) (by decide)

/-- Claim C2: `introducerCast` applied to a byte-string value with a
UTF-16, UTF-16LE or UCS2 target prepends exactly one zero byte when the
byte length is odd and leaves the bytes unchanged otherwise; with a
UTF-32 target it prepends zero bytes up to the next multiple of four and
leaves multiples of four unchanged. -/
theorem c2_introducer_padding (b : EvalBytes) (col : CollationID) :
    ((charsetOf col = CharsetKind.csUtf16 ∨ charsetOf col = CharsetKind.csUtf16le ∨
        charsetOf col = CharsetKind.csUcs2) →
      introducerCast (some (EvalValue.bytes b)) col
        = EvalOutcome.ok (newEvalText
            (if b.bytes.length % 2 = 0 then b.bytes else 0 :: b.bytes)
            ⟨col, Coercibility.CoerceCoercible, Repertoire.ASCII⟩))
    ∧ (charsetOf col = CharsetKind.csUtf32 →
      introducerCast (some (EvalValue.bytes b)) col
        = EvalOutcome.ok (newEvalText
            (if b.bytes.length % 4 = 0 then b.bytes
              else List.replicate (4 - b.bytes.length % 4) 0 ++ b.bytes)
            ⟨col, Coercibility.CoerceCoercible, Repertoire.ASCII⟩)) := by
  constructor
  · intro h
    cases col <;> simp [charsetOf] at h <;>
      · simp only [introducerCast, padForCharset, charsetOf]
        rw [if_neg (by decide)]
        by_cases hm : b.bytes.length % 2 = 0 <;> simp [hm]
  · intro h
    cases col <;> simp [charsetOf] at h
    simp only [introducerCast, padForCharset, charsetOf]
    rw [if_neg (by decide)]
    by_cases hm : b.bytes.length % 4 = 0 <;> simp [hm]

/-- Witness for claim C2: the three-byte string "abc" under a UTF-16
introducer gains exactly one leading zero byte, and under a UTF-32
introducer is padded with one leading zero byte to length four. -/
theorem c2_witness :
    introducerCast (some (EvalValue.bytes ⟨SqlType.varChar, [97, 98, 99], collationBinary, false⟩))
        CollationID.utf16GeneralCi
      = EvalOutcome.ok (newEvalText [0, 97, 98, 99]
          ⟨CollationID.utf16GeneralCi, Coercibility.CoerceCoercible, Repertoire.ASCII⟩) := by
  have h := (c2_introducer_padding ⟨SqlType.varChar, [97, 98, 99], collationBinary, false⟩
    CollationID.utf16GeneralCi).1 (Or.inl rfl)
  simpa using h

/-- Claim C5: an introducer whose target collation is the binary
collation evaluates a byte-string literal to an opaque binary value
carrying exactly the literal's bytes (no padding, no reinterpretation)
with the binary collation, whose Coercibility is Coercible. -/
theorem c5_binary_introducer (st : SqlType) (bs : List Nat) (bcol : TypedCollation) (fl : Bool)
    (co : Coercibility) (re : Repertoire) (env : ExpressionEnv) :
    evalExpr (Expr.introducer (Expr.literal (some (EvalValue.bytes ⟨st, bs, bcol, fl⟩)))
        ⟨CollationID.binaryID, co, re⟩) env
      = EvalOutcome.ok (some (EvalValue.bytes ⟨SqlType.varBinary, bs, collationBinary, true⟩))
    ∧ collationBinary.coercibility = Coercibility.CoerceCoercible := by
  exact ⟨rfl, rfl⟩

/-- Claim C8: `introducerCast` is not total on non-NULL inputs — on the
non-byte-string value 1 with the non-binary target collation
utf8mb4_general_ci it dereferences the nil `*evalBytes` pointer produced
by the failed type assertion instead of using the value's raw bytes. -/
theorem c8_introducer_cast_nil_deref :
    introducerCast (some (EvalValue.int 1)) CollationID.utf8mb4GeneralCi = EvalOutcome.nilDeref
    ∧ CollationID.utf8mb4GeneralCi ≠ CollationID.binaryID := by
  decide

/-- Claim C9: when the inner expression of a COLLATE node evaluates to
NULL, interpreted evaluation returns NULL with no error for every target
collation whatsoever — the collation-compatibility check is skipped
entirely. -/
theorem c9_collate_null_skips_check (inner : Expr) (tc : TypedCollation) (env : ExpressionEnv)
    (h : evalExpr inner env = EvalOutcome.ok none) :
    evalExpr (Expr.collate inner tc) env = EvalOutcome.ok none := by
  simp only [evalExpr]
  rw [h]

/-- Witness for claim C9: a NULL literal under COLLATE with a UTF-16
target collation evaluates to NULL. -/
theorem c9_witness :
    evalExpr (Expr.collate (Expr.literal none)
        ⟨CollationID.utf16GeneralCi, Coercibility.CoerceExplicit, Repertoire.Unicode⟩) envEmpty
      = EvalOutcome.ok none :=
  c9_collate_null_skips_check (Expr.literal none)
    ⟨CollationID.utf16GeneralCi, Coercibility.CoerceExplicit, Repertoire.Unicode⟩ envEmpty rfl

/-- Claim C3: for a COLLATE node whose inner expression evaluates to a
non-NULL value, on the interpreted path: a byte-string inner value is
re-tagged to the explicit target when the collations are convertible and
the evaluation fails with InvalidArgument when they are not; a
non-textual inner value is first cast to character form under the target
collation; every successful non-NULL result is a byte string carrying the
ExplicitCollation flag.  On the compiled path: compilation of a
character-string-typed inner with a non-convertible collation fails with
InvalidArgument, every successful compilation marks the result type
ExplicitCollation with the node's collation, and whenever compilation
succeeds under conforming rows the compiled program agrees with the
interpreter. -/
theorem c3_collate_semantics (inner : Expr) (tc : TypedCollation) (env : ExpressionEnv) :
    (∀ b : EvalBytes, evalExpr inner env = EvalOutcome.ok (some (EvalValue.bytes b)) →
      (ensureCollate b.col.collation tc.collation = true →
        evalExpr (Expr.collate inner tc) env
          = EvalOutcome.ok (some (EvalValue.bytes ((b.withCollation tc).setExplicitCollation))))
      ∧ (ensureCollate b.col.collation tc.collation = false →
        evalExpr (Expr.collate inner tc) env = EvalOutcome.err ErrorKind.invalidArgument))
    ∧ (∀ i : Int, evalExpr inner env = EvalOutcome.ok (some (EvalValue.int i)) →
        evalExpr (Expr.collate inner tc) env
          = EvalOutcome.ok (some (EvalValue.bytes
              ((newEvalText (convertToCharset (charsetOf tc.collation) (rawBytes (EvalValue.int i)))
                ⟨tc.collation, Coercibility.CoerceCoercible, Repertoire.ASCII⟩).setExplicitCollation))))
    ∧ (∀ v : EvalValue, evalExpr (Expr.collate inner tc) env = EvalOutcome.ok (some v) →
        ∃ b2 : EvalBytes, v = EvalValue.bytes b2 ∧ b2.flagExplicitCollation = true)
    ∧ (∀ (schema : List Ctype) (code0 code1 : List Instr) (ct1 : Ctype),
        compileExpr schema inner code0 = Except.ok (code1, ct1) →
        (ct1.t = SqlType.varChar → ensureCollate ct1.col.collation tc.collation = false →
          compileExpr schema (Expr.collate inner tc) code0 = Except.error ErrorKind.invalidArgument)
        ∧ (∀ (code2 : List Instr) (ct2 : Ctype),
            compileExpr schema (Expr.collate inner tc) code0 = Except.ok (code2, ct2) →
            ct2.fExplicitCollation = true ∧ ct2.col = tc ∧ ct2.t = SqlType.varChar))
    ∧ (∀ (schema : List Ctype) (code : List Instr) (ct2 : Ctype),
        rowConforms env.row schema = true → wfExpr inner = true → introSafe env inner = true →
        compileProgram schema (Expr.collate inner tc) = Except.ok (code, ct2) →
        runProgram code env = evalExpr (Expr.collate inner tc) env) := by
  refine ⟨?_, ?_, ?_, ?_, ?_⟩
  · intro b hb
    constructor <;> intro hen <;> simp only [evalExpr] <;> rw [hb] <;> simp [hen]
  · intro i hi
    simp only [evalExpr]
    rw [hi]
    rfl
  · intro v hv
    simp only [evalExpr] at hv
    cases ho : evalExpr inner env with
    | err e0 => rw [ho] at hv; cases hv
    | nilDeref => rw [ho] at hv; cases hv
    | ok w =>
        cases w with
        | none => rw [ho] at hv; cases hv
        | some u =>
            cases u with
            | bytes b =>
                rw [ho] at hv
                dsimp only at hv
                by_cases hen : ensureCollate b.col.collation tc.collation = true
                · rw [if_pos hen] at hv
                  refine ⟨(b.withCollation tc).setExplicitCollation, ?_, rfl⟩
                  injection hv with hv2
                  injection hv2 with hv3
                  exact hv3.symm
                · rw [if_neg hen] at hv
                  cases hv
            | int i =>
                rw [ho] at hv
                dsimp only [evalToVarchar] at hv
                refine ⟨(newEvalText (convertToCharset (charsetOf tc.collation)
                  (rawBytes (EvalValue.int i)))
                  ⟨tc.collation, Coercibility.CoerceCoercible, Repertoire.ASCII⟩).setExplicitCollation, ?_, rfl⟩
                injection hv with hv2
                injection hv2 with hv3
                exact hv3.symm
  · intro schema code0 code1 ct1 hcin
    constructor
    · intro ht hen
      simp only [compileExpr]
      rw [hcin]
      dsimp only
      rw [ht]
      dsimp only
      rw [hen]
      simp
    · intro code2 ct2 hc2
      simp only [compileExpr] at hc2
      rw [hcin] at hc2
      obtain ⟨t1, c1, n1, e1⟩ := ct1
      cases t1 with
      | varChar =>
          cases hen2 : ensureCollate c1.collation tc.collation with
          | false => simp [hen2] at hc2
          | true =>
              simp [hen2, Except.ok.injEq, Prod.mk.injEq] at hc2
              obtain ⟨hc21, hc22⟩ := hc2
              subst hc22
              exact ⟨rfl, rfl, rfl⟩
      | varBinary =>
          simp [Except.ok.injEq, Prod.mk.injEq] at hc2
          obtain ⟨hc21, hc22⟩ := hc2
          subst hc22
          exact ⟨rfl, rfl, rfl⟩
      | int64 =>
          simp [Except.ok.injEq, Prod.mk.injEq] at hc2
          obtain ⟨hc21, hc22⟩ := hc2
          subst hc22
          exact ⟨rfl, rfl, rfl⟩
      | tnull =>
          simp [Except.ok.injEq, Prod.mk.injEq] at hc2
          obtain ⟨hc21, hc22⟩ := hc2
          subst hc22
          exact ⟨rfl, rfl, rfl⟩
  · intro schema code ct2 hrow hw hs hc
    exact compileProgram_run_eq_eval schema env (Expr.collate inner tc) code ct2 hrow
      (by simpa [wfExpr] using hw) (by simpa [introSafe] using hs) hc

/-- Witness for claim C3: a byte-string literal under a compatible
COLLATE target is re-tagged, with the ExplicitCollation flag set. -/
theorem c3_witness :
    evalExpr (Expr.collate (Expr.literal (some (EvalValue.bytes
        ⟨SqlType.varChar, [97, 98], tcUtf8BinImplicit, false⟩))) tcUtf8Explicit) envEmpty
      = EvalOutcome.ok (some (EvalValue.bytes
          ⟨SqlType.varChar, [97, 98], tcUtf8Explicit, true⟩)) := by
  have h := ((c3_collate_semantics (Expr.literal (some (EvalValue.bytes
    ⟨SqlType.varChar, [97, 98], tcUtf8BinImplicit, false⟩))) tcUtf8Explicit envEmpty).1
    ⟨SqlType.varChar, [97, 98], tcUtf8BinImplicit, false⟩ rfl).1 (by decide)
  simpa [EvalBytes.withCollation, EvalBytes.setExplicitCollation] using h

/-- Claim C4 counterexample: an introducer over a NULL inner expression
does not evaluate to NULL on the interpreted path — `IntroducerExpr.eval`
passes the nil value straight into `introducerCast`, which dereferences
the nil `*evalBytes` pointer of its failed type assertion. -/
theorem c4_counterexample :
    evalExpr (Expr.introducer (Expr.literal none) tcUtf8Coercible) envEmpty ≠ EvalOutcome.ok none
    ∧ evalExpr (Expr.introducer (Expr.literal none) tcUtf8Coercible) envEmpty
      = EvalOutcome.nilDeref := by
  decide

/-- Claim C4 (amended): when the inner expression evaluates to NULL, a
COLLATE node evaluates to NULL on both the interpreted and the compiled
path, and an introducer node yields NULL on the compiled path; the
interpreted introducer path does not propagate NULL (see the
counterexample). -/
theorem c4_null_propagation (inner : Expr) (tc : TypedCollation) (env : ExpressionEnv)
    (schema : List Ctype)
    (hrow : rowConforms env.row schema = true)
    (hw : wfExpr inner = true) (hs : introSafe env inner = true)
    (hnull : evalExpr inner env = EvalOutcome.ok none) :
    evalExpr (Expr.collate inner tc) env = EvalOutcome.ok none
    ∧ (∀ (code : List Instr) (ct : Ctype),
        compileProgram schema (Expr.collate inner tc) = Except.ok (code, ct) →
        runProgram code env = EvalOutcome.ok none)
    ∧ (∀ (code : List Instr) (ct : Ctype),
        compileProgram schema (Expr.introducer inner tc) = Except.ok (code, ct) →
        runProgram code env = EvalOutcome.ok none) := by
  have h1 : evalExpr (Expr.collate inner tc) env = EvalOutcome.ok none := by
    simp only [evalExpr]
    rw [hnull]
  refine ⟨h1, ?_, ?_⟩
  · intro code ct hc
    have h2 := compileProgram_run_eq_eval schema env (Expr.collate inner tc) code ct hrow
      (by simpa [wfExpr] using hw) (by simpa [introSafe] using hs) hc
    rw [h2, h1]
  · intro code ct hc
    simp only [compileProgram, compileExpr] at hc
    cases hin : compileExpr schema inner [] with
    | error e0 => rw [hin] at hc; cases hc
    | ok pr =>
        obtain ⟨codeIn, ctIn⟩ := pr
        rw [hin] at hc
        simp only [Except.ok.injEq, Prod.mk.injEq] at hc
        obtain ⟨hc1, hc2⟩ := hc
        obtain ⟨v, k, heval, hconf, hlen, hrun⟩ :=
          compileRunAgrees schema env hrow inner [] codeIn ctIn hw hs hin
        rw [hnull] at heval
        injection heval with hv
        subst hv
        subst hc1
        have hk : k ≤ codeIn.length := by simpa using hlen
        have h2 := hrun [Instr.introduce
          (if tc.collation = CollationID.binaryID then SqlType.varBinary else SqlType.varChar) tc]
          [] (codeIn.length + 2 - k)
        have hf : (codeIn.length + 2 - k) + k = codeIn.length + 2 := by omega
        rw [hf] at h2
        obtain ⟨g, hg⟩ : ∃ g, codeIn.length + 2 - k = g + 1 := ⟨codeIn.length + 1 - k, by omega⟩
        rw [hg] at h2
        rw [runVM_at_introduceNone _ env g codeIn.length _ tc []
          (lt_len_cons codeIn _ []) (getD_append_at codeIn _ [] _)] at h2
        obtain ⟨g2, hg2⟩ : ∃ g2, g = g2 + 1 := ⟨codeIn.length - k, by omega⟩
        rw [hg2] at h2
        rw [runVM_done _ env g2 (codeIn.length + 1) none (by simp)] at h2
        have hlc : (codeIn ++ [Instr.introduce
            (if tc.collation = CollationID.binaryID then SqlType.varBinary else SqlType.varChar) tc]).length + 1
            = codeIn.length + 2 := by simp
        simp only [runProgram, hlc]
        rw [hg, hg2] at hf
        calc runVM (codeIn ++ [Instr.introduce
              (if tc.collation = CollationID.binaryID then SqlType.varBinary else SqlType.varChar) tc])
              env (codeIn.length + 2) 0 []
            = EvalOutcome.ok none := h2

/-- Witness for the amended claim C4: COLLATE over a NULL column value
evaluates to NULL on the interpreted path. -/
theorem c4_witness :
    evalExpr (Expr.collate (Expr.column 0) tcUtf8Explicit) ⟨[none]⟩ = EvalOutcome.ok none :=
  (c4_null_propagation (Expr.column 0) tcUtf8Explicit ⟨[none]⟩ wSchema
    (by decide) (by decide) (by decide) (by decide)).1

/-- Claim C6 counterexample: COLLATE is not idempotent.  For the
non-textual value 1 and the explicit target collation `tcUtf8Explicit`,
the single application succeeds, yet applying COLLATE twice yields a
different value: the first application leaves the cast's default coercion
collation (Coercibility Coercible) while the second re-tags the full
typed collation of the node (Coercibility Explicit). -/
theorem c6_counterexample :
    evalExpr (Expr.collate (Expr.collate (Expr.literal (some (EvalValue.int 1))) tcUtf8Explicit)
        tcUtf8Explicit) envEmpty
      ≠ evalExpr (Expr.collate (Expr.literal (some (EvalValue.int 1))) tcUtf8Explicit) envEmpty
    ∧ evalExpr (Expr.collate (Expr.literal (some (EvalValue.int 1))) tcUtf8Explicit) envEmpty
      = EvalOutcome.ok (some (EvalValue.bytes ⟨SqlType.varChar, [49],
          ⟨CollationID.utf8mb4GeneralCi, Coercibility.CoerceCoercible, Repertoire.ASCII⟩, true⟩)) := by
  decide

/-- Claim C6 (amended): COLLATE is idempotent on values that are already
byte strings (whenever the single application succeeds, the double
application yields the identical value); for a non-textual value the
double application agrees with the single application on type tag, byte
payload and collation id, differing only in that it re-tags the result
with the node's full typed collation instead of the cast's default
coercion collation. -/
theorem c6_collate_idempotent_on_bytes (b : EvalBytes) (tc : TypedCollation)
    (env : ExpressionEnv) (i : Int) :
    (ensureCollate b.col.collation tc.collation = true →
      evalExpr (Expr.collate (Expr.collate (Expr.literal (some (EvalValue.bytes b))) tc) tc) env
        = evalExpr (Expr.collate (Expr.literal (some (EvalValue.bytes b))) tc) env)
    ∧ (evalExpr (Expr.collate (Expr.collate (Expr.literal (some (EvalValue.int i))) tc) tc) env
        = EvalOutcome.ok (some (EvalValue.bytes
            (((newEvalText (convertToCharset (charsetOf tc.collation) (rawBytes (EvalValue.int i)))
              ⟨tc.collation, Coercibility.CoerceCoercible, Repertoire.ASCII⟩).setExplicitCollation).withCollation
                tc)))
      ∧ evalExpr (Expr.collate (Expr.literal (some (EvalValue.int i))) tc) env
        = EvalOutcome.ok (some (EvalValue.bytes
            ((newEvalText (convertToCharset (charsetOf tc.collation) (rawBytes (EvalValue.int i)))
              ⟨tc.collation, Coercibility.CoerceCoercible, Repertoire.ASCII⟩).setExplicitCollation)))) := by
  constructor
  · intro hen
    simp only [evalExpr]
    rw [hen]
    simp [EvalBytes.withCollation, EvalBytes.setExplicitCollation, ensureCollate_refl]
  · constructor
    · simp only [evalExpr]
      dsimp only [evalToVarchar]
      simp [newEvalText, EvalBytes.withCollation, EvalBytes.setExplicitCollation, ensureCollate_refl]
    · simp only [evalExpr]
      rfl

/-- Witness for the amended claim C6: double COLLATE on a byte-string
value equals single COLLATE. -/
theorem c6_witness :
    evalExpr (Expr.collate (Expr.collate (Expr.literal (some (EvalValue.bytes
        ⟨SqlType.varChar, [97], tcUtf8BinImplicit, false⟩))) tcUtf8Explicit) tcUtf8Explicit) envEmpty
      = evalExpr (Expr.collate (Expr.literal (some (EvalValue.bytes
          ⟨SqlType.varChar, [97], tcUtf8BinImplicit, false⟩))) tcUtf8Explicit) envEmpty :=
  (c6_collate_idempotent_on_bytes ⟨SqlType.varChar, [97], tcUtf8BinImplicit, false⟩
    tcUtf8Explicit envEmpty 0).1 (by decide)

/-- Claim C7: a parser checked out of the shared pool by `yyParsePooled`
is overwritten with the zero parser before being returned to the pool on
every exit path — in particular for every possible `parse` function,
including ones that return a nonzero (error) status — so if every pooled
parser is zero beforehand, every pooled parser is zero afterwards and a
parser acquired from the pool never carries state from a previous
parse. -/
theorem c7_pool_reset (parse : YyParserImpl → Nat → YyParserImpl × Int)
    (pool : List YyParserImpl) (yylex : Nat)
    (h : ∀ p ∈ pool, p = parserZero) :
    (yyParsePooled parse pool yylex).2.head? = some parserZero
    ∧ ∀ q ∈ (yyParsePooled parse pool yylex).2, q = parserZero := by
  constructor
  · rfl
  · intro q hq
    cases pool with
    | nil =>
        simp [yyParsePooled] at hq
        simp [hq]
    | cons p ps =>
        simp [yyParsePooled] at hq
        rcases hq with hq | hq
        · simp [hq]
        · exact h q (List.mem_cons_of_mem p hq)

/-- Witness for claim C7: a concrete parse function that dirties the
parser state and returns the error status 1; the parser put back into
the pool is nevertheless the zero parser. -/
theorem c7_witness :
    (yyParsePooled (fun p n => (⟨n + 1, p.lval :: p.stack⟩, 1)) [parserZero] 5).2.head?
      = some parserZero :=
  (c7_pool_reset (fun p n => (⟨n + 1, p.lval :: p.stack⟩, 1)) [parserZero] 5
    (by simp)).1

/-- Claim C10: given a compiled inner expression, compiling the COLLATE
node over it with a binary-string inner compile-time type succeeds for
every target collation whatsoever — no convertibility check, no
InvalidArgument — and emits the collation-metadata rewrite instruction;
with a character-string inner compile-time type the convertibility check
runs, failing compilation with InvalidArgument exactly when the
collations are incompatible. -/
theorem c10_compile_binary_unchecked (schema : List Ctype) (inner : Expr) (tc : TypedCollation)
    (code0 code1 : List Instr) (ct1 : Ctype)
    (hcin : compileExpr schema inner code0 = Except.ok (code1, ct1)) :
    (ct1.t = SqlType.varBinary →
      compileExpr schema (Expr.collate inner tc) code0
        = Except.ok (jumpDestination ((compileNullCheck1 ct1 code1).1 ++ [Instr.collate tc])
            (compileNullCheck1 ct1 code1).2,
            ⟨SqlType.varChar, tc, true, true⟩))
    ∧ (ct1.t = SqlType.varChar →
        (ensureCollate ct1.col.collation tc.collation = false →
          compileExpr schema (Expr.collate inner tc) code0 = Except.error ErrorKind.invalidArgument)
        ∧ (ensureCollate ct1.col.collation tc.collation = true →
          compileExpr schema (Expr.collate inner tc) code0
            = Except.ok (jumpDestination ((compileNullCheck1 ct1 code1).1 ++ [Instr.collate tc])
                (compileNullCheck1 ct1 code1).2,
                ⟨SqlType.varChar, tc, true, true⟩))) := by
  constructor
  · intro ht
    simp only [compileExpr]
    rw [hcin]
    dsimp only
    rw [ht]
  · intro ht
    constructor <;> intro hen <;> simp only [compileExpr] <;> rw [hcin] <;> dsimp only <;>
      rw [ht] <;> dsimp only <;> rw [hen] <;> simp

/-- Witness for claim C10: a binary-string literal under COLLATE to a
utf8mb4 target compiles without any convertibility check, emitting the
`Collate` instruction. -/
theorem c10_witness :
    compileExpr [] (Expr.collate (Expr.literal (some (EvalValue.bytes
        ⟨SqlType.varBinary, [1], collationBinary, false⟩))) tcUtf8Explicit) []
      = Except.ok ([Instr.pushLiteral (some (EvalValue.bytes
          ⟨SqlType.varBinary, [1], collationBinary, false⟩)), Instr.collate tcUtf8Explicit],
          ⟨SqlType.varChar, tcUtf8Explicit, true, true⟩) := by
  have h := (c10_compile_binary_unchecked [] (Expr.literal (some (EvalValue.bytes
    ⟨SqlType.varBinary, [1], collationBinary, false⟩))) tcUtf8Explicit []
    [Instr.pushLiteral (some (EvalValue.bytes ⟨SqlType.varBinary, [1], collationBinary, false⟩))]
    ⟨SqlType.varBinary, collationBinary, false, false⟩ (by decide)).1 rfl
  simpa [compileNullCheck1, jumpDestination] using h
